import Mathlib

/-!
Shallow embedding of the evaluation-rule functions of `ffe_groundrules.py`
(repository liuxx839/ffe).  DataFrames are lists of records; pandas
`groupby` is modelled as a map over the list of distinct keys in first
occurrence order, with each group's aggregate computed by filtering the
full list.  No stated property depends on row or group order (pandas sorts
group keys; the embedding keeps first-occurrence order), only on which
rows exist and which values they carry.  Float division by zero and the
NaN values produced by unmatched merge keys are modelled by the `FVal`
type below; all finite arithmetic is exact (`Rat`), which is faithful for
the aggregation logic being verified.
-/

/-- Value of a float-valued pandas column: a finite rational, one of the
two infinities produced by dividing a nonzero value by zero, or NaN
(produced by 0/0 and by missing merge keys).  Comparisons follow IEEE
semantics: every comparison with NaN is false. -/
inductive FVal where
  | fin (q : ℚ)
  | pinf
  | ninf
  | nan
deriving DecidableEq, Inhabited

/-- Division of two exact values with IEEE zero-divisor behaviour. -/
def fdiv (a b : ℚ) : FVal :=
  if b ≠ 0 then .fin (a / b)
  else if 0 < a then .pinf
  else if a < 0 then .ninf
  else .nan

/-- Subtract one, as applied to a growth-rate column (infinities and NaN
are preserved). -/
def FVal.sub1 : FVal → FVal
  | .fin q => .fin (q - 1)
  | .pinf => .pinf
  | .ninf => .ninf
  | .nan => .nan

/-- Multiplication by a positive constant factor (written `* 4` and
`0.7 *` in the source); signs of infinities are preserved because the
factor is positive. -/
def FVal.smulPos (c : ℚ) : FVal → FVal
  | .fin q => .fin (c * q)
  | .pinf => .pinf
  | .ninf => .ninf
  | .nan => .nan

/-- IEEE strict less-than on column values. -/
def FVal.lt : FVal → FVal → Bool
  | .nan, _ => false
  | _, .nan => false
  | .fin a, .fin b => a < b
  | .fin _, .pinf => true
  | .fin _, .ninf => false
  | .pinf, _ => false
  | .ninf, .ninf => false
  | .ninf, _ => true

/-- IEEE less-or-equal on column values. -/
def FVal.le : FVal → FVal → Bool
  | .nan, _ => false
  | _, .nan => false
  | .fin a, .fin b => a ≤ b
  | .fin _, .pinf => true
  | .fin _, .ninf => false
  | .pinf, .pinf => true
  | .pinf, _ => false
  | .ninf, _ => true

/-- Division where either operand may already be non-finite (used for the
productivity-index columns, whose denominator comes from a merge). -/
def fdivF : FVal → FVal → FVal
  | .nan, _ => .nan
  | _, .nan => .nan
  | .fin a, .fin b => fdiv a b
  | .fin _, .pinf => .fin 0
  | .fin _, .ninf => .fin 0
  | .pinf, .fin b => if 0 ≤ b then .pinf else .ninf
  | .ninf, .fin b => if 0 ≤ b then .ninf else .pinf
  | .pinf, .pinf => .nan
  | .pinf, .ninf => .nan
  | .ninf, .pinf => .nan
  | .ninf, .ninf => .nan

theorem FVal.lt_pinf_left (x : FVal) : FVal.lt .pinf x = false := by
  cases x <;> rfl

theorem FVal.lt_nan_left (x : FVal) : FVal.lt .nan x = false := by
  cases x <;> rfl

/-- Auxiliary worker for `drop_duplicates`: keeps each record whose key
has not been seen before. -/
def ddAux {α κ : Type} (k : α → κ) [DecidableEq κ] (seen : List κ) : List α → List α
  | [] => []
  | a :: l => if k a ∈ seen then ddAux k seen l else a :: ddAux k (k a :: seen) l

/-- pandas `drop_duplicates(subset=...)`, keeping the first record with
each key value, in order. -/
def dropDupBy {α κ : Type} (k : α → κ) [DecidableEq κ] (l : List α) : List α :=
  ddAux k [] l

/-- Distinct key values of a list, in first-occurrence order (the group
keys of a pandas `groupby`; pandas sorts them, but no verified property
depends on group order). -/
def keysOf {α κ : Type} (l : List α) (k : α → κ) [DecidableEq κ] : List κ :=
  (dropDupBy k l).map k

/-- pandas `nunique`: number of distinct key values. -/
def nuniqueBy {α κ : Type} (l : List α) (k : α → κ) [DecidableEq κ] : ℕ :=
  (keysOf l k).length

/-- Sum of a numeric column over a list of records (pandas `sum`). -/
def sumBy {α : Type} (l : List α) (v : α → ℚ) : ℚ :=
  (l.map v).sum

theorem mem_of_mem_ddAux {α κ : Type} {k : α → κ} [DecidableEq κ]
    {a : α} : ∀ {seen : List κ} {l : List α}, a ∈ ddAux k seen l → a ∈ l := by
  intro seen l
  induction l generalizing seen with
  | nil => intro h; exact absurd h (List.not_mem_nil a)
  | cons b t ih =>
    intro h
    simp only [ddAux] at h
    by_cases hb : k b ∈ seen
    · simp only [if_pos hb] at h
      exact List.mem_cons_of_mem _ (ih h)
    · simp only [if_neg hb, List.mem_cons] at h
      rcases h with h | h
      · exact h ▸ List.mem_cons_self b t
      · exact List.mem_cons_of_mem _ (ih h)

theorem mem_of_mem_dropDupBy {α κ : Type} {k : α → κ} [DecidableEq κ]
    {a : α} {l : List α} (h : a ∈ dropDupBy k l) : a ∈ l :=
  mem_of_mem_ddAux h

theorem key_mem_ddAux {α κ : Type} {k : α → κ} [DecidableEq κ]
    {a : α} : ∀ {l : List α} {seen : List κ}, a ∈ l → k a ∉ seen →
      k a ∈ (ddAux k seen l).map k := by
  intro l
  induction l with
  | nil => intro seen h; exact absurd h (List.not_mem_nil a)
  | cons b t ih =>
    intro seen h hseen
    simp only [ddAux]
    by_cases hb : k b ∈ seen
    · simp only [if_pos hb]
      rcases List.mem_cons.mp h with rfl | ht
      · exact absurd hb hseen
      · exact ih ht hseen
    · simp only [if_neg hb, List.map_cons, List.mem_cons]
      by_cases hab : k a = k b
      · exact Or.inl hab
      · rcases List.mem_cons.mp h with rfl | ht
        · exact Or.inl rfl
        · refine Or.inr (ih ht ?_)
          simp only [List.mem_cons]
          exact fun hc => hc.elim hab hseen

theorem mem_keysOf {α κ : Type} {k : α → κ} [DecidableEq κ]
    {l : List α} {q : κ} : q ∈ keysOf l k ↔ ∃ a ∈ l, k a = q := by
  constructor
  · intro h
    rcases List.mem_map.mp h with ⟨a, ha, rfl⟩
    exact ⟨a, mem_of_mem_dropDupBy ha, rfl⟩
  · rintro ⟨a, ha, rfl⟩
    exact key_mem_ddAux ha (List.not_mem_nil _)

theorem keys_ddAux_nodup {α κ : Type} {k : α → κ} [DecidableEq κ] :
    ∀ {l : List α} {seen : List κ},
      ((ddAux k seen l).map k).Nodup ∧ ∀ q ∈ (ddAux k seen l).map k, q ∉ seen := by
  intro l
  induction l with
  | nil => intro seen; simp [ddAux]
  | cons b t ih =>
    intro seen
    simp only [ddAux]
    by_cases hb : k b ∈ seen
    · simp only [if_pos hb]
      exact ih
    · simp only [if_neg hb, List.map_cons, List.nodup_cons]
      have h := @ih (k b :: seen)
      refine ⟨⟨fun hc => ?_, h.1⟩, ?_⟩
      · exact (h.2 _ hc) (List.mem_cons_self _ _)
      · intro q hq
        simp only [List.mem_cons] at hq
        rcases hq with rfl | hq
        · exact hb
        · intro hqs
          exact (h.2 q hq) (List.mem_cons_of_mem _ hqs)

theorem nodup_keysOf {α κ : Type} {k : α → κ} [DecidableEq κ] {l : List α} :
    (keysOf l k).Nodup :=
  keys_ddAux_nodup.1

/-- Filtering by a predicate that is determined by the dedup key commutes
with `drop_duplicates` (the seen lists may differ on keys of records the
predicate rejects). -/
theorem ddAux_filter {α κ : Type} {k : α → κ} [DecidableEq κ] {P : α → Bool}
    (hP : ∀ a b, k a = k b → P a = P b) :
    ∀ (l : List α) (seen seen' : List κ),
      (∀ a ∈ l, P a = true → (k a ∈ seen ↔ k a ∈ seen')) →
      (ddAux k seen l).filter P = ddAux k seen' (l.filter P) := by
  intro l
  induction l with
  | nil => intro seen seen' _; simp [ddAux]
  | cons b t ih =>
    intro seen seen' hmem
    by_cases hPb : P b = true
    · have hiff := hmem b (List.mem_cons_self _ _) hPb
      simp only [ddAux, List.filter_cons, hPb]
      by_cases hb : k b ∈ seen
      · have hb' : k b ∈ seen' := hiff.mp hb
        simp only [if_pos hb, if_pos hb']
        exact ih seen seen' (fun a ha hPa => hmem a (List.mem_cons_of_mem _ ha) hPa)
      · have hb' : k b ∉ seen' := fun hc => hb (hiff.mpr hc)
        simp only [if_pos hPb, if_neg hb, if_neg hb', List.filter_cons, hPb, ddAux]
        simp only [List.filter_cons, hPb, if_pos] at *
        refine congrArg (b :: ·) (ih (k b :: seen) (k b :: seen') ?_)
        intro a ha hPa
        simp only [List.mem_cons]
        have := hmem a (List.mem_cons_of_mem _ ha) hPa
        exact ⟨fun h => h.elim Or.inl (fun h2 => Or.inr (this.mp h2)),
               fun h => h.elim Or.inl (fun h2 => Or.inr (this.mpr h2))⟩
    · have hPb' : P b = false := by
        cases hfb : P b
        · rfl
        · exact absurd hfb hPb
      simp only [ddAux, List.filter_cons, hPb']
      by_cases hb : k b ∈ seen
      · simp only [if_pos hb]
        exact ih seen seen' (fun a ha hPa => hmem a (List.mem_cons_of_mem _ ha) hPa)
      · simp only [if_neg hb, List.filter_cons, hPb']
        refine ih (k b :: seen) seen' ?_
        intro a ha hPa
        have hne : k a ≠ k b := by
          intro he
          rw [hP a b he, hPb'] at hPa
          exact Bool.false_ne_true hPa
        have := hmem a (List.mem_cons_of_mem _ ha) hPa
        simp only [List.mem_cons]
        exact ⟨fun h => h.elim (fun h2 => absurd h2 hne) this.mp,
               fun h => Or.inr (this.mpr h)⟩

theorem dropDupBy_filter {α κ : Type} {k : α → κ} [DecidableEq κ] {P : α → Bool}
    (hP : ∀ a b, k a = k b → P a = P b) (l : List α) :
    (dropDupBy k l).filter P = dropDupBy k (l.filter P) :=
  ddAux_filter hP l [] [] (by simp)

theorem dropDupBy_cons {α κ : Type} (k : α → κ) [DecidableEq κ] (a : α) (l : List α) :
    dropDupBy k (a :: l) = a :: ddAux k [k a] l := by
  simp [dropDupBy, ddAux]

/-- Summing a column over a partition of the records by a predicate. -/
theorem sumBy_filter_add {α : Type} (l : List α) (p : α → Bool) (v : α → ℚ) :
    sumBy (l.filter p) v + sumBy (l.filter (fun a => ! p a)) v = sumBy l v := by
  induction l with
  | nil => simp [sumBy]
  | cons a t ih =>
    cases hp : p a <;>
      simp only [sumBy, List.filter_cons, hp, Bool.not_true, Bool.not_false] at * <;>
      simp only [Bool.false_eq_true, if_false, if_true, reduceIte,
        List.map_cons, List.sum_cons] <;> linarith

/-- Summing each group of a grouped aggregation and adding the group sums
recovers the total column sum. -/
theorem sumBy_fiberwise {α κ : Type} {k : α → κ} [DecidableEq κ] (v : α → ℚ) :
    ∀ (keys : List κ) (l : List α), keys.Nodup → (∀ a ∈ l, k a ∈ keys) →
      (keys.map (fun q => sumBy (l.filter (fun a => k a = q)) v)).sum = sumBy l v := by
  intro keys
  induction keys with
  | nil =>
    intro l _ hc
    have : l = [] := by
      cases l with
      | nil => rfl
      | cons a t => exact absurd (hc a (List.mem_cons_self _ _)) (List.not_mem_nil _)
    simp [this, sumBy]
  | cons q qs ih =>
    intro l hnd hc
    simp only [List.map_cons, List.sum_cons]
    have hq : q ∉ qs := (List.nodup_cons.mp hnd).1
    have hstep : (qs.map (fun q' => sumBy (l.filter (fun a => k a = q')) v)).sum
        = (qs.map (fun q' => sumBy ((l.filter (fun a => ! (k a = q))).filter
            (fun a => k a = q')) v)).sum := by
      refine congrArg List.sum (List.map_congr_left ?_)
      intro q' hq'
      have : (l.filter (fun a => ! (k a = q))).filter (fun a => k a = q')
          = l.filter (fun a => k a = q') := by
        rw [List.filter_filter]
        refine List.filter_congr ?_
        intro a _
        by_cases he : k a = q'
        · have hne : ¬ (q' = q) := fun h2 => hq (h2 ▸ hq')
          simp [he, hne]
        · simp [he]
      rw [this]
    rw [hstep, ih (l.filter (fun a => ! (k a = q))) (List.nodup_cons.mp hnd).2 ?side]
    case side =>
      intro a ha
      have h1 := (List.mem_filter.mp ha).1
      have h2 := (List.mem_filter.mp ha).2
      have := hc a h1
      simp only [List.mem_cons] at this
      rcases this with he | hm
      · simp [he] at h2
      · exact hm
    exact sumBy_filter_add l (fun a => k a = q) v

/-- One input record (one row of the uploaded table), with the columns the
verified rules read.  Chinese column names are transliterated: `prov` is
the row's 省份 (province), `city` its 城市, `potential` its 医院潜力
(hospital potential), `hosp` its 医院编码 (facility id).  The quarter
columns are `a2023q1`/`a2023q2`/`a2024q1` (the actuals) and `target`
(24Q2 Final Target); `r6m` is R6M Sales Actual. -/
structure Row where
  mr_pos : String
  mr_name : String
  dm_pos : String
  dm_name : String
  dm_base_city : String
  dm_base_prov : String
  rm_pos : String
  rm_name : String
  pt_group : String
  prov : String
  city : String
  hosp : String
  a2023q1 : ℚ
  a2023q2 : ℚ
  a2024q1 : ℚ
  target : ℚ
  r6m : ℚ
  potential : ℚ
deriving DecidableEq, Inhabited

/-- One output row of `check_personnel_deployment`. -/
structure ProvStat where
  prov : String
  a2023q2 : ℚ
  target : ℚ
  mrCount : ℕ
  productivity : FVal
  growthRate : FVal
  violation : String
deriving DecidableEq, Inhabited

/-- Rows of the input belonging to one province (the 省份 group). -/
def provRows (df : List Row) (p : String) : List Row :=
  df.filter (fun r => r.prov = p)

/-- Aggregate row of one province before the violation flag is set:
summed actual and target, distinct-MR count, productivity
`(target / mr_count) * 4` and growth `target / actual - 1`. -/
def provStat0 (df : List Row) (p : String) : ProvStat :=
  let g := provRows df p
  let t := sumBy g (fun r => r.target)
  let a := sumBy g (fun r => r.a2023q2)
  let m := nuniqueBy g (fun r => r.mr_pos)
  { prov := p, a2023q2 := a, target := t, mrCount := m,
    productivity := (fdiv t (m : ℚ)).smulPos 4,
    growthRate := (fdiv t a).sub1,
    violation := "N" }

/-- Grand total target of `check_personnel_deployment`, summed over the
per-province aggregate rows as the source does. -/
def totalTargetPD (df : List Row) : ℚ :=
  (((keysOf df (fun r => r.prov)).map (provStat0 df)).map (fun s => s.target)).sum

/-- Overall MR head count of `check_personnel_deployment`: the sum of the
per-province distinct-MR counts (an aggregate of aggregates, not a global
distinct count). -/
def totalMRPD (df : List Row) : ℚ :=
  (((keysOf df (fun r => r.prov)).map (provStat0 df)).map (fun s => (s.mrCount : ℚ))).sum

/-- Embedding of `check_personnel_deployment`: group by province, compute
the overall values from the grand totals (the overall MR count is the sum
of the per-province distinct counts, the overall prior actual is summed
directly over the input), and set `violation = Y` iff both province
figures are strictly below the overall figures. -/
def check_personnel_deployment (df : List Row) : List ProvStat :=
  let overallProd := (fdiv (totalTargetPD df) (totalMRPD df)).smulPos 4
  let overallGrowth := (fdiv (totalTargetPD df) (sumBy df (fun r => r.a2023q2))).sub1
  ((keysOf df (fun r => r.prov)).map (provStat0 df)).map (fun s =>
    { s with violation :=
        if FVal.lt s.productivity overallProd && FVal.lt s.growthRate overallGrowth
        then "Y" else "N" })

/-- One output row of `evaluate_dm_deployment` (`evaluate_rm_deployment`
has the same shape). -/
structure MgrEval where
  pos : String
  name : String
  span : ℕ
  spanRangeCheck : String
  productivity : ℚ
  violation : String
deriving DecidableEq, Inhabited

/-- Embedding of `evaluate_dm_deployment`: span of control is the number
of distinct MRs per (DM position, DM name) group, the range check accepts
6 to 10, productivity is the DM position's summed target, and
`violation = Yes` iff span is under 7 and productivity is under 0.7 times
the overall figure (total target over distinct DM positions). -/
def evaluate_dm_deployment (df : List Row) : List MgrEval :=
  let overall := fdiv (sumBy df (fun r => r.target)) ((nuniqueBy df (fun r => r.dm_pos) : ℚ))
  (keysOf df (fun r => (r.dm_pos, r.dm_name))).map (fun dn =>
    let span := nuniqueBy (df.filter (fun r => r.dm_pos = dn.1 ∧ r.dm_name = dn.2))
      (fun r => r.mr_pos)
    let prod := sumBy (df.filter (fun r => r.dm_pos = dn.1)) (fun r => r.target)
    { pos := dn.1, name := dn.2, span := span,
      spanRangeCheck := if 6 ≤ span ∧ span ≤ 10 then "Yes" else "No",
      productivity := prod,
      violation :=
        if span < 7 ∧ FVal.lt (.fin prod) (overall.smulPos (7/10)) = true
        then "Yes" else "No" })

/-- Embedding of `evaluate_rm_deployment`: same shape one level up — span
is the number of distinct DM positions per (RM position, RM name) group,
the range check accepts 6 to 8, and `violation = Yes` iff span is under 6
and the RM position's summed target is under 0.7 times the overall figure
(total target over distinct RM positions). -/
def evaluate_rm_deployment (df : List Row) : List MgrEval :=
  let overall := fdiv (sumBy df (fun r => r.target)) ((nuniqueBy df (fun r => r.rm_pos) : ℚ))
  (keysOf df (fun r => (r.rm_pos, r.rm_name))).map (fun rn =>
    let span := nuniqueBy (df.filter (fun r => r.rm_pos = rn.1 ∧ r.rm_name = rn.2))
      (fun r => r.dm_pos)
    let prod := sumBy (df.filter (fun r => r.rm_pos = rn.1)) (fun r => r.target)
    { pos := rn.1, name := rn.2, span := span,
      spanRangeCheck := if 6 ≤ span ∧ span ≤ 8 then "Yes" else "No",
      productivity := prod,
      violation :=
        if span < 6 ∧ FVal.lt (.fin prod) (overall.smulPos (7/10)) = true
        then "Yes" else "No" })

/-- One output row of `calculate_pt_group_metrics`. -/
structure PTMetrics where
  group : String
  a2023q1 : ℚ
  a2023q2 : ℚ
  a2024q1 : ℚ
  target : ℚ
  numPeople : ℕ
  q2AvgProd : FVal
  q1AvgProd : FVal
  q2Growth : FVal
  q1Growth : FVal
deriving DecidableEq, Inhabited

/-- Metric row of one PT group: the four summed quarter columns, the
distinct-MR head count, the two average productivities and the two
growth rates. -/
def ptMetric (df : List Row) (g : String) : PTMetrics :=
  let rows := df.filter (fun r => r.pt_group = g)
  let t := sumBy rows (fun r => r.target)
  let s23q2 := sumBy rows (fun r => r.a2023q2)
  let s23q1 := sumBy rows (fun r => r.a2023q1)
  let s24q1 := sumBy rows (fun r => r.a2024q1)
  let n := nuniqueBy rows (fun r => r.mr_pos)
  { group := g, a2023q1 := s23q1, a2023q2 := s23q2, a2024q1 := s24q1,
    target := t, numPeople := n,
    q2AvgProd := fdiv t (n : ℚ), q1AvgProd := fdiv s24q1 (n : ℚ),
    q2Growth := (fdiv t s23q2).sub1, q1Growth := (fdiv s24q1 s23q1).sub1 }

/-- Embedding of `calculate_pt_group_metrics`: one metric row per
distinct PT group. -/
def calculate_pt_group_metrics (df : List Row) : List PTMetrics :=
  (keysOf df (fun r => r.pt_group)).map (ptMetric df)

theorem smulPos_fdiv (c a b : ℚ) (hc : 0 < c) :
    (fdiv a b).smulPos c = fdiv (c * a) b := by
  unfold fdiv
  by_cases hb : b = 0
  · by_cases ha : 0 < a
    · simp [hb, ha, mul_pos hc ha, FVal.smulPos]
    · by_cases ha' : a < 0
      · have h1 : c * a < 0 := mul_neg_of_pos_of_neg hc ha'
        simp [hb, ha, ha', h1, not_lt.mpr (le_of_lt h1), FVal.smulPos]
      · have h0 : a = 0 := le_antisymm (not_lt.mp ha) (not_lt.mp ha')
        simp [hb, h0, FVal.smulPos]
  · simp [hb, FVal.smulPos, mul_div_assoc]

theorem provStat0_prov (df : List Row) (p : String) : (provStat0 df p).prov = p := rfl

theorem provStat0_target (df : List Row) (p : String) :
    (provStat0 df p).target = sumBy (provRows df p) (fun r => r.target) := rfl

theorem provStat0_a2023q2 (df : List Row) (p : String) :
    (provStat0 df p).a2023q2 = sumBy (provRows df p) (fun r => r.a2023q2) := rfl

theorem provStat0_mrCount (df : List Row) (p : String) :
    (provStat0 df p).mrCount = nuniqueBy (provRows df p) (fun r => r.mr_pos) := rfl

theorem provStat0_productivity (df : List Row) (p : String) :
    (provStat0 df p).productivity
      = (fdiv (sumBy (provRows df p) (fun r => r.target))
          ((nuniqueBy (provRows df p) (fun r => r.mr_pos) : ℚ))).smulPos 4 := rfl

theorem provStat0_growthRate (df : List Row) (p : String) :
    (provStat0 df p).growthRate
      = (fdiv (sumBy (provRows df p) (fun r => r.target))
          (sumBy (provRows df p) (fun r => r.a2023q2))).sub1 := rfl

theorem totalTargetPD_eq (df : List Row) :
    totalTargetPD df = sumBy df (fun r => r.target) := by
  have h := sumBy_fiberwise (k := fun r : Row => r.prov) (fun r => r.target)
    (keysOf df (fun r => r.prov)) df nodup_keysOf
    (fun a ha => mem_keysOf.mpr ⟨a, ha, rfl⟩)
  unfold totalTargetPD
  rw [List.map_map]
  exact h

theorem totalMRPD_eq (df : List Row) :
    totalMRPD df = ((keysOf df (fun r => r.prov)).map
      (fun p => (nuniqueBy (provRows df p) (fun r => r.mr_pos) : ℚ))).sum := by
  unfold totalMRPD
  rw [List.map_map]
  rfl

/-- C2: in `check_personnel_deployment`, a province's violation flag is
`Y` exactly when its productivity (4 times its summed target over its
distinct-MR count) and its growth rate (summed target over summed
prior-year-Q2 actual, minus 1) are both strictly below the overall
values, the overall productivity being 4 times the total target over the
sum of the per-province distinct-MR counts (an aggregate of aggregates)
and the overall growth rate the total target over the total prior-year-Q2
actual, minus 1. -/
theorem personnel_violation_iff (df : List Row) :
    ∀ s ∈ check_personnel_deployment df,
      (s.violation = "Y" ↔
        (FVal.lt (fdiv (4 * sumBy (provRows df s.prov) (fun r => r.target))
              ((nuniqueBy (provRows df s.prov) (fun r => r.mr_pos) : ℚ)))
            (fdiv (4 * sumBy df (fun r => r.target))
              (((keysOf df (fun r => r.prov)).map
                (fun p => (nuniqueBy (provRows df p) (fun r => r.mr_pos) : ℚ))).sum)) = true
         ∧
         FVal.lt ((fdiv (sumBy (provRows df s.prov) (fun r => r.target))
              (sumBy (provRows df s.prov) (fun r => r.a2023q2))).sub1)
            ((fdiv (sumBy df (fun r => r.target))
              (sumBy df (fun r => r.a2023q2))).sub1) = true)) := by
  intro s hs
  simp only [check_personnel_deployment, List.mem_map] at hs
  obtain ⟨s₀, hs₀, rfl⟩ := hs
  obtain ⟨p, hp, rfl⟩ := hs₀
  have hprod : (provStat0 df p).productivity
      = fdiv (4 * sumBy (provRows df p) (fun r => r.target))
          ((nuniqueBy (provRows df p) (fun r => r.mr_pos) : ℚ)) := by
    rw [provStat0_productivity, smulPos_fdiv _ _ _ (by norm_num)]
  have hop : (fdiv (totalTargetPD df) (totalMRPD df)).smulPos 4
      = fdiv (4 * sumBy df (fun r => r.target))
          (((keysOf df (fun r => r.prov)).map
            (fun p => (nuniqueBy (provRows df p) (fun r => r.mr_pos) : ℚ))).sum) := by
    rw [smulPos_fdiv _ _ _ (by norm_num), totalTargetPD_eq, totalMRPD_eq]
  have hog : (fdiv (totalTargetPD df) (sumBy df (fun r => r.a2023q2))).sub1
      = (fdiv (sumBy df (fun r => r.target)) (sumBy df (fun r => r.a2023q2))).sub1 := by
    rw [totalTargetPD_eq]
  simp only [provStat0_prov, provStat0_growthRate, hprod, hop, hog]
  constructor
  · intro h
    split_ifs at h with hc
    · rw [Bool.and_eq_true] at hc
      exact hc
    · exact absurd h (by decide)
  · intro h
    rw [if_pos (by rw [Bool.and_eq_true]; exact h)]

theorem fdiv_zero_den (a : ℚ) :
    fdiv a 0 = if 0 < a then FVal.pinf else if a < 0 then FVal.ninf else FVal.nan := by
  unfold fdiv
  simp

theorem sub1_zero_den_nonfin (a : ℚ) :
    (fdiv a 0).sub1 = FVal.pinf ∨ (fdiv a 0).sub1 = FVal.ninf ∨ (fdiv a 0).sub1 = FVal.nan := by
  rw [fdiv_zero_den]
  split_ifs <;> simp [FVal.sub1]

theorem lt_sub1_zero_den_nonneg (a : ℚ) (h : 0 ≤ a) (x : FVal) :
    FVal.lt ((fdiv a 0).sub1) x = false := by
  rw [fdiv_zero_den]
  rcases lt_or_eq_of_le h with h1 | h1
  · simp only [if_pos h1, FVal.sub1, FVal.lt_pinf_left]
  · simp only [← h1, lt_irrefl, if_false, reduceIte, FVal.sub1, FVal.lt_nan_left]

/-- C7 (amended): when a province's summed prior-year-Q2 actual is zero,
`check_personnel_deployment` still produces the province's row, its
growth rate is one of the non-finite markers, and — provided the
province's summed target is nonnegative — its violation flag is `N`.
(With a negative summed target the growth rate is negative infinity,
which does compare strictly below a finite overall growth rate, so the
flag can be `Y`; see the counterexample.) -/
theorem personnel_zero_prior (df : List Row) :
    ∀ s ∈ check_personnel_deployment df,
      sumBy (provRows df s.prov) (fun r => r.a2023q2) = 0 →
      (s.growthRate = FVal.pinf ∨ s.growthRate = FVal.ninf ∨ s.growthRate = FVal.nan) ∧
      (0 ≤ sumBy (provRows df s.prov) (fun r => r.target) → s.violation = "N") := by
  intro s hs
  simp only [check_personnel_deployment, List.mem_map] at hs
  obtain ⟨s₀, hs₀, rfl⟩ := hs
  obtain ⟨p, hp, rfl⟩ := hs₀
  simp only [provStat0_prov, provStat0_growthRate]
  intro hzero
  simp only [hzero]
  refine ⟨sub1_zero_den_nonfin _, fun hnn => ?_⟩
  rw [lt_sub1_zero_den_nonneg _ hnn, Bool.and_false]
  rfl

/-- Row of all-empty strings and zero metrics, a base for the concrete
examples below. -/
def row0 : Row :=
  { mr_pos := "", mr_name := "", dm_pos := "", dm_name := "", dm_base_city := "",
    dm_base_prov := "", rm_pos := "", rm_name := "", pt_group := "", prov := "",
    city := "", hosp := "", a2023q1 := 0, a2023q2 := 0, a2024q1 := 0, target := 0,
    r6m := 0, potential := 0 }

/-- Input with a province whose prior-year-Q2 actual sums to zero while
its target is negative. -/
def dfC7 : List Row :=
  [{ row0 with prov := "PA", mr_pos := "m1", target := -8, a2023q2 := 0 },
   { row0 with prov := "PB", mr_pos := "m2", target := 100, a2023q2 := 80 }]

/-- C7 counterexample: on `dfC7`, province PA has summed prior-year-Q2
actual zero, yet its violation flag is `Y` (its growth rate is negative
infinity, strictly below the overall growth rate), contradicting the
claim that such a province's flag is always `N`. -/
theorem personnel_zero_prior_cex :
    ∃ s ∈ check_personnel_deployment dfC7,
      sumBy (provRows dfC7 s.prov) (fun r => r.a2023q2) = 0 ∧
      s.growthRate = FVal.ninf ∧ s.violation = "Y" := by
  with_unfolding_all decide

/-- Input with a province whose prior-year-Q2 actual sums to zero and
whose target is nonnegative. -/
def dfC7w : List Row :=
  [{ row0 with prov := "PA", mr_pos := "m1", target := 5, a2023q2 := 0 },
   { row0 with prov := "PB", mr_pos := "m2", target := 100, a2023q2 := 80 }]

/-- Witness instantiating `personnel_zero_prior` on `dfC7w`. -/
theorem personnel_zero_prior_witness :
    ((check_personnel_deployment dfC7w).headI.growthRate = FVal.pinf ∨
     (check_personnel_deployment dfC7w).headI.growthRate = FVal.ninf ∨
     (check_personnel_deployment dfC7w).headI.growthRate = FVal.nan) ∧
    (check_personnel_deployment dfC7w).headI.violation = "N" :=
  ⟨(personnel_zero_prior dfC7w _ (by with_unfolding_all decide) (by with_unfolding_all decide)).1,
   (personnel_zero_prior dfC7w _ (by with_unfolding_all decide)
     (by with_unfolding_all decide)).2 (by with_unfolding_all decide)⟩

theorem fdiv_ne_zero_den (a b : ℚ) (hb : b ≠ 0) : fdiv a b = FVal.fin (a / b) := by
  unfold fdiv
  simp [hb]

theorem FVal.smulPos_fin (c q : ℚ) : FVal.smulPos c (.fin q) = .fin (c * q) := rfl

theorem FVal.lt_fin_fin (a b : ℚ) : FVal.lt (.fin a) (.fin b) = decide (a < b) := rfl

theorem ite_eq_left_iff_of_ne {c : Prop} [Decidable c] {a b : String} (hab : b ≠ a) :
    ((if c then a else b) = a) ↔ c := by
  split_ifs with h
  · exact iff_of_true rfl h
  · exact iff_of_false hab h

/-- C3: in `evaluate_dm_deployment`, a DM's violation flag is `Yes`
exactly when the DM's span of control (distinct MR count) is strictly
below 7 and the DM's summed target is strictly below 0.7 times the
overall DM productivity (total target over distinct DM count); both
bounds are strict, so a DM with span 6 whose productivity is exactly 70
percent of the overall figure is flagged `No`.  Hypothesis: each DM
position id carries a single DM name, as the grouped keys presuppose. -/
theorem dm_violation_iff (df : List Row)
    (hname : ∀ r ∈ df, ∀ r' ∈ df, r.dm_pos = r'.dm_pos → r.dm_name = r'.dm_name) :
    ∀ e ∈ evaluate_dm_deployment df,
      (e.violation = "Yes" ↔
        nuniqueBy (df.filter (fun r => r.dm_pos = e.pos)) (fun r => r.mr_pos) < 7 ∧
        sumBy (df.filter (fun r => r.dm_pos = e.pos)) (fun r => r.target)
          < 7/10 * (sumBy df (fun r => r.target) / (nuniqueBy df (fun r => r.dm_pos) : ℚ))) := by
  intro e he
  simp only [evaluate_dm_deployment, List.mem_map] at he
  obtain ⟨dn, hdn, rfl⟩ := he
  obtain ⟨w, hw, hkey⟩ := mem_keysOf.mp hdn
  have hw1 : w.dm_pos = dn.1 := by rw [← hkey]
  have hw2 : w.dm_name = dn.2 := by rw [← hkey]
  have hfe : df.filter (fun r => r.dm_pos = dn.1 ∧ r.dm_name = dn.2)
      = df.filter (fun r => r.dm_pos = dn.1) := by
    refine List.filter_congr ?_
    intro r hr
    by_cases hp : r.dm_pos = dn.1
    · have hn : r.dm_name = dn.2 := by
        rw [← hw2]
        exact hname r hr w hw (by rw [hp, hw1])
      simp [hp, hn]
    · simp [hp]
  have hD : ((nuniqueBy df (fun r => r.dm_pos) : ℚ)) ≠ 0 := by
    have hm : w.dm_pos ∈ keysOf df (fun r => r.dm_pos) := mem_keysOf.mpr ⟨w, hw, rfl⟩
    have hpos : 0 < nuniqueBy df (fun r => r.dm_pos) := List.length_pos_of_mem hm
    exact_mod_cast hpos.ne'
  have hov : (fdiv (sumBy df (fun r => r.target))
        ((nuniqueBy df (fun r => r.dm_pos) : ℚ))).smulPos (7/10)
      = .fin (7/10 * (sumBy df (fun r => r.target)
          / (nuniqueBy df (fun r => r.dm_pos) : ℚ))) := by
    rw [fdiv_ne_zero_den _ _ hD, FVal.smulPos_fin]
  dsimp only
  rw [hfe, hov, ite_eq_left_iff_of_ne (by decide), FVal.lt_fin_fin]
  simp only [decide_eq_true_eq]

/-- C4: in `evaluate_rm_deployment`, an RM's violation flag is `Yes`
exactly when the RM's span of control (distinct DM count) is strictly
below 6 — not 7, asymmetrically with the DM rule — and the RM's summed
target is strictly below 0.7 times the overall productivity (total
target over distinct RM count).  Hypothesis: each RM position id carries
a single RM name, as the grouped keys presuppose. -/
theorem rm_violation_iff (df : List Row)
    (hname : ∀ r ∈ df, ∀ r' ∈ df, r.rm_pos = r'.rm_pos → r.rm_name = r'.rm_name) :
    ∀ e ∈ evaluate_rm_deployment df,
      (e.violation = "Yes" ↔
        nuniqueBy (df.filter (fun r => r.rm_pos = e.pos)) (fun r => r.dm_pos) < 6 ∧
        sumBy (df.filter (fun r => r.rm_pos = e.pos)) (fun r => r.target)
          < 7/10 * (sumBy df (fun r => r.target) / (nuniqueBy df (fun r => r.rm_pos) : ℚ))) := by
  intro e he
  simp only [evaluate_rm_deployment, List.mem_map] at he
  obtain ⟨rn, hrn, rfl⟩ := he
  obtain ⟨w, hw, hkey⟩ := mem_keysOf.mp hrn
  have hw1 : w.rm_pos = rn.1 := by rw [← hkey]
  have hw2 : w.rm_name = rn.2 := by rw [← hkey]
  have hfe : df.filter (fun r => r.rm_pos = rn.1 ∧ r.rm_name = rn.2)
      = df.filter (fun r => r.rm_pos = rn.1) := by
    refine List.filter_congr ?_
    intro r hr
    by_cases hp : r.rm_pos = rn.1
    · have hn : r.rm_name = rn.2 := by
        rw [← hw2]
        exact hname r hr w hw (by rw [hp, hw1])
      simp [hp, hn]
    · simp [hp]
  have hD : ((nuniqueBy df (fun r => r.rm_pos) : ℚ)) ≠ 0 := by
    have hm : w.rm_pos ∈ keysOf df (fun r => r.rm_pos) := mem_keysOf.mpr ⟨w, hw, rfl⟩
    have hpos : 0 < nuniqueBy df (fun r => r.rm_pos) := List.length_pos_of_mem hm
    exact_mod_cast hpos.ne'
  have hov : (fdiv (sumBy df (fun r => r.target))
        ((nuniqueBy df (fun r => r.rm_pos) : ℚ))).smulPos (7/10)
      = .fin (7/10 * (sumBy df (fun r => r.target)
          / (nuniqueBy df (fun r => r.rm_pos) : ℚ))) := by
    rw [fdiv_ne_zero_den _ _ hD, FVal.smulPos_fin]
  dsimp only
  rw [hfe, hov, ite_eq_left_iff_of_ne (by decide), FVal.lt_fin_fin]
  simp only [decide_eq_true_eq]

/-- C5: the span-range checks use different bounds at the two levels —
for every DM row of `evaluate_dm_deployment` the flag is `Yes` iff the
span of control lies in [6, 10], while for every RM row of
`evaluate_rm_deployment` it is `Yes` iff the span lies in [6, 8]. -/
theorem span_range_checks (df : List Row) :
    (∀ e ∈ evaluate_dm_deployment df,
      (e.spanRangeCheck = "Yes" ↔ 6 ≤ e.span ∧ e.span ≤ 10)) ∧
    (∀ e ∈ evaluate_rm_deployment df,
      (e.spanRangeCheck = "Yes" ↔ 6 ≤ e.span ∧ e.span ≤ 8)) := by
  constructor
  · intro e he
    simp only [evaluate_dm_deployment, List.mem_map] at he
    obtain ⟨dn, hdn, rfl⟩ := he
    exact ite_eq_left_iff_of_ne (by decide)
  · intro e he
    simp only [evaluate_rm_deployment, List.mem_map] at he
    obtain ⟨rn, hrn, rfl⟩ := he
    exact ite_eq_left_iff_of_ne (by decide)

/-- Per-MR sums of the four quarter columns (the `groupby` on MR position
and name at the start of `evaluate_mr_performance`). -/
structure MRAgg where
  pos : String
  name : String
  a2023q1 : ℚ
  a2023q2 : ℚ
  a2024q1 : ℚ
  target : ℚ
deriving DecidableEq, Inhabited

def mrAgg (df : List Row) : List MRAgg :=
  (keysOf df (fun r => (r.mr_pos, r.mr_name))).map (fun pn =>
    let g := df.filter (fun r => r.mr_pos = pn.1 ∧ r.mr_name = pn.2)
    { pos := pn.1, name := pn.2,
      a2023q1 := sumBy g (fun r => r.a2023q1), a2023q2 := sumBy g (fun r => r.a2023q2),
      a2024q1 := sumBy g (fun r => r.a2024q1), target := sumBy g (fun r => r.target) })

/-- The deduplicated (MR position, PT group) pairs that
`evaluate_mr_performance` left-merges onto the per-MR sums. -/
def ptPairs (df : List Row) : List (String × String) :=
  dropDupBy id (df.map (fun r => (r.mr_pos, r.pt_group)))

/-- Right side of a pandas left merge: an empty match list yields a
single all-NaN row, a nonempty one yields one row per match. -/
def optList {α : Type} : List α → List (Option α)
  | [] => [none]
  | a :: l => (a :: l).map some

/-- PT-group values merged onto the per-MR row for one MR position. -/
def groupsFor (df : List Row) (p : String) : List (Option String) :=
  optList (((ptPairs df).filter (fun q => q.1 = p)).map (fun q => q.2))

/-- PT-group metric rows merged (on PT group) onto one intermediate row;
a NaN group key matches nothing. -/
def metricMatches (pt : List PTMetrics) : Option String → List (Option PTMetrics)
  | none => [none]
  | some g => optList (pt.filter (fun m => m.group = g))

/-- One output row of `evaluate_mr_performance`. -/
structure MRPerf where
  pos : String
  name : String
  group : Option String
  a2023q1 : ℚ
  a2023q2 : ℚ
  a2024q1 : ℚ
  target : ℚ
  q2AvgProd : FVal
  q2Rate : FVal
  q2Index : FVal
  q2Growth : FVal
  q2Low : String
  q2Med : String
  q1AvgProd : FVal
  q1Rate : FVal
  q1Index : FVal
  q1Growth : FVal
  q1Low : String
  q1Med : String
deriving DecidableEq, Inhabited

/-- Assembles one output row of `evaluate_mr_performance` from the per-MR
sums, the merged PT group and the two merged metric rows (`none` models
the NaN columns of an unmatched merge): productivity index
`target / group average productivity`, growth `target / prior actual - 1`,
`..._Low = Yes` iff index < 0.5 and `..._Med = Yes` iff growth is below
the group growth rate and the index lies in [0.5, 0.7]. -/
def mkMRPerf (b : MRAgg) (g : Option String) (m2 m1 : Option PTMetrics) : MRPerf :=
  let avg2 := match m2 with | some m => m.q2AvgProd | none => FVal.nan
  let rate2 := match m2 with | some m => m.q2Growth | none => FVal.nan
  let avg1 := match m1 with | some m => m.q1AvgProd | none => FVal.nan
  let rate1 := match m1 with | some m => m.q1Growth | none => FVal.nan
  let idx2 := fdivF (.fin b.target) avg2
  let gr2 := (fdiv b.target b.a2023q2).sub1
  let idx1 := fdivF (.fin b.a2024q1) avg1
  let gr1 := (fdiv b.a2024q1 b.a2023q1).sub1
  { pos := b.pos, name := b.name, group := g,
    a2023q1 := b.a2023q1, a2023q2 := b.a2023q2, a2024q1 := b.a2024q1, target := b.target,
    q2AvgProd := avg2, q2Rate := rate2, q2Index := idx2, q2Growth := gr2,
    q2Low := if FVal.lt idx2 (.fin (1/2)) then "Yes" else "No",
    q2Med := if FVal.lt gr2 rate2 && FVal.le (.fin (1/2)) idx2 && FVal.le idx2 (.fin (7/10))
             then "Yes" else "No",
    q1AvgProd := avg1, q1Rate := rate1, q1Index := idx1, q1Growth := gr1,
    q1Low := if FVal.lt idx1 (.fin (1/2)) then "Yes" else "No",
    q1Med := if FVal.lt gr1 rate1 && FVal.le (.fin (1/2)) idx1 && FVal.le idx1 (.fin (7/10))
             then "Yes" else "No" }

/-- Embedding of `evaluate_mr_performance`: per-MR sums, left merge of
the deduplicated (MR, PT group) pairs on MR position, then two left
merges of the PT-group metric table on PT group (each merge multiplies a
row by its number of matches, or keeps it once with NaN columns when
there is none, as pandas does). -/
def evaluate_mr_performance (df : List Row) (pt : List PTMetrics) : List MRPerf :=
  (mrAgg df).flatMap (fun b =>
    (groupsFor df b.pos).flatMap (fun g =>
      (metricMatches pt g).flatMap (fun m2 =>
        (metricMatches pt g).map (fun m1 => mkMRPerf b g m2 m1))))

/-- C6: in `evaluate_mr_performance`, the low-productivity flag is `Yes`
exactly when the productivity index is strictly below 0.5 (an index of
exactly 0.5 gives `No`), and the medium-band flag is `Yes` exactly when
growth is strictly below the PT group's growth rate and the index lies in
the closed interval [0.5, 0.7] (an index of exactly 0.7 with low growth
gives `Yes`); the Q1 flags behave symmetrically. -/
theorem mr_perf_flags (df : List Row) (pt : List PTMetrics) :
    ∀ o ∈ evaluate_mr_performance df pt,
      (o.q2Low = "Yes" ↔ FVal.lt o.q2Index (.fin (1/2)) = true) ∧
      (o.q2Med = "Yes" ↔ FVal.lt o.q2Growth o.q2Rate = true ∧
        FVal.le (.fin (1/2)) o.q2Index = true ∧ FVal.le o.q2Index (.fin (7/10)) = true) ∧
      (o.q1Low = "Yes" ↔ FVal.lt o.q1Index (.fin (1/2)) = true) ∧
      (o.q1Med = "Yes" ↔ FVal.lt o.q1Growth o.q1Rate = true ∧
        FVal.le (.fin (1/2)) o.q1Index = true ∧ FVal.le o.q1Index (.fin (7/10)) = true) := by
  intro o ho
  simp only [evaluate_mr_performance, List.mem_flatMap, List.mem_map] at ho
  obtain ⟨b, hb, g, hg, m2, hm2, m1, hm1, rfl⟩ := ho
  refine ⟨ite_eq_left_iff_of_ne (by decide), ?_,
          ite_eq_left_iff_of_ne (by decide), ?_⟩
  · refine (ite_eq_left_iff_of_ne (by decide)).trans ?_
    simp only [Bool.and_eq_true, and_assoc]
    exact Iff.rfl
  · refine (ite_eq_left_iff_of_ne (by decide)).trans ?_
    simp only [Bool.and_eq_true, and_assoc]
    exact Iff.rfl

theorem nodup_dropDupBy_id {α : Type} [DecidableEq α] (l : List α) :
    (dropDupBy id l).Nodup := by
  have h := @keys_ddAux_nodup α α id _ l []
  simpa [dropDupBy] using h.1

theorem mem_dropDupBy_id {α : Type} [DecidableEq α] {a : α} {l : List α} (h : a ∈ l) :
    a ∈ dropDupBy id l := by
  have h2 := key_mem_ddAux (k := (id : α → α)) h (List.not_mem_nil _)
  simpa [dropDupBy] using h2

/-- A filter of a duplicate-free list whose predicate holds exactly at
one member is that singleton. -/
theorem filter_eq_singleton_of {α : Type} {l : List α} {P : α → Bool} {x : α}
    (hnd : l.Nodup) (hx : x ∈ l) (hPx : P x = true)
    (huniq : ∀ y ∈ l, P y = true → y = x) :
    l.filter P = [x] := by
  induction l with
  | nil => cases hx
  | cons a t ih =>
    have hand := List.nodup_cons.mp hnd
    rcases List.mem_cons.mp hx with rfl | hxt
    · rw [List.filter_cons, if_pos hPx]
      have ht : t.filter P = [] := by
        refine List.filter_eq_nil_iff.mpr ?_
        intro y hy hPy
        exact hand.1 ((huniq y (List.mem_cons_of_mem _ hy) (by simpa using hPy)) ▸ hy)
      rw [ht]
    · have hPa : P a = false := by
        cases hPa : P a
        · rfl
        · exact absurd ((huniq a (List.mem_cons_self _ _) hPa) ▸ hxt) hand.1
      rw [List.filter_cons, hPa]
      simp only [Bool.false_eq_true, if_false, reduceIte]
      exact ih hand.2 hxt (fun y hy hPy => huniq y (List.mem_cons_of_mem _ hy) hPy)

/-- Mapped version of `filter_eq_singleton_of`. -/
theorem filter_map_eq_singleton {κ β : Type} (keys : List κ) (f : κ → β) (P : β → Bool)
    (x : κ) (hnd : keys.Nodup) (hx : x ∈ keys) (hPx : P (f x) = true)
    (hP : ∀ y ∈ keys, P (f y) = true → y = x) :
    (keys.map f).filter P = [f x] := by
  rw [List.filter_map]
  have h1 : keys.filter (P ∘ f) = [x] := filter_eq_singleton_of hnd hx hPx hP
  rw [h1]
  rfl

theorem flatMap_map_of_singleton {α β γ : Type} (pr : β → γ) (g : α → γ) :
    ∀ (l : List α) (f : α → List β), (∀ a ∈ l, (f a).map pr = [g a]) →
      (l.flatMap f).map pr = l.map g := by
  intro l
  induction l with
  | nil => intro f _; rfl
  | cons a t ih =>
    intro f h
    rw [List.flatMap_cons, List.map_append, h a (List.mem_cons_self _ _), List.map_cons,
      ih f (fun a ha => h a (List.mem_cons_of_mem _ ha))]
    rfl

/-- Under one PT group per MR position, the merged group list of an MR is
the singleton of that group. -/
theorem groupsFor_singleton (df : List Row)
    (hgrp : ∀ r ∈ df, ∀ r' ∈ df, r.mr_pos = r'.mr_pos → r.pt_group = r'.pt_group)
    (w : Row) (hw : w ∈ df) :
    groupsFor df w.mr_pos = [some w.pt_group] := by
  have hfil : (ptPairs df).filter (fun q => q.1 = w.mr_pos) = [(w.mr_pos, w.pt_group)] := by
    refine filter_eq_singleton_of (nodup_dropDupBy_id _)
      (mem_dropDupBy_id (List.mem_map.mpr ⟨w, hw, rfl⟩)) (by simp) ?_
    intro y hy hPy
    obtain ⟨r, hr, rfl⟩ := List.mem_map.mp (mem_of_mem_dropDupBy hy)
    simp only [decide_eq_true_eq] at hPy
    have := hgrp r hr w hw hPy
    simp [hPy, this]
  unfold groupsFor
  rw [hfil]
  rfl

theorem ptMetric_group (df : List Row) (g : String) : (ptMetric df g).group = g := rfl

/-- The PT-metric rows matching a group present in the input form the
singleton of that group's metric row. -/
theorem metricMatches_singleton (df : List Row) (w : Row) (hw : w ∈ df) :
    metricMatches (calculate_pt_group_metrics df) (some w.pt_group)
      = [some (ptMetric df w.pt_group)] := by
  have hg : w.pt_group ∈ keysOf df (fun r => r.pt_group) := mem_keysOf.mpr ⟨w, hw, rfl⟩
  have hfil : ((keysOf df (fun r => r.pt_group)).map (ptMetric df)).filter
      (fun m => m.group = w.pt_group) = [ptMetric df w.pt_group] :=
    filter_map_eq_singleton _ _ _ w.pt_group nodup_keysOf hg
      (by simp [ptMetric_group])
      (fun y hy hPy => by simpa [ptMetric_group] using hPy)
  show optList (((keysOf df (fun r => r.pt_group)).map (ptMetric df)).filter
      (fun m => m.group = w.pt_group)) = _
  rw [hfil]
  rfl

/-- C8 (amended): when every MR position id carries a single MR name and
a single PT group — as the source data is assumed, but not validated, to
do — `evaluate_mr_performance` over the PT-group metrics of the same
table returns exactly one output row per distinct MR position id, the
four quarter columns summed over that MR's input rows, and that MR's
unique PT group attached.  Without the single-PT-group assumption the
merge with the deduplicated (MR, PT group) pairs duplicates the MR's
row; see the counterexample. -/
theorem mr_perf_rows (df : List Row)
    (hname : ∀ r ∈ df, ∀ r' ∈ df, r.mr_pos = r'.mr_pos → r.mr_name = r'.mr_name)
    (hgrp : ∀ r ∈ df, ∀ r' ∈ df, r.mr_pos = r'.mr_pos → r.pt_group = r'.pt_group) :
    ((evaluate_mr_performance df (calculate_pt_group_metrics df)).map (fun o => o.pos)).Nodup ∧
    (∀ p, p ∈ (evaluate_mr_performance df (calculate_pt_group_metrics df)).map (fun o => o.pos)
      ↔ ∃ r ∈ df, r.mr_pos = p) ∧
    (∀ o ∈ evaluate_mr_performance df (calculate_pt_group_metrics df),
      o.a2023q1 = sumBy (df.filter (fun r => r.mr_pos = o.pos)) (fun r => r.a2023q1) ∧
      o.a2023q2 = sumBy (df.filter (fun r => r.mr_pos = o.pos)) (fun r => r.a2023q2) ∧
      o.a2024q1 = sumBy (df.filter (fun r => r.mr_pos = o.pos)) (fun r => r.a2024q1) ∧
      o.target = sumBy (df.filter (fun r => r.mr_pos = o.pos)) (fun r => r.target) ∧
      (∀ r ∈ df, r.mr_pos = o.pos → o.group = some r.pt_group)) := by
  have hinner : ∀ b ∈ mrAgg df,
      ((groupsFor df b.pos).flatMap (fun g =>
        (metricMatches (calculate_pt_group_metrics df) g).flatMap (fun m2 =>
          (metricMatches (calculate_pt_group_metrics df) g).map
            (fun m1 => mkMRPerf b g m2 m1)))).map (fun o => o.pos) = [b.pos] := by
    intro b hb
    simp only [mrAgg, List.mem_map] at hb
    obtain ⟨pn, hpn, rfl⟩ := hb
    obtain ⟨w, hw, hkey⟩ := mem_keysOf.mp hpn
    have hw1 : w.mr_pos = pn.1 := by rw [← hkey]
    have hg : groupsFor df pn.1 = [some w.pt_group] := by
      rw [← hw1]
      exact groupsFor_singleton df hgrp w hw
    have hm := metricMatches_singleton df w hw
    dsimp only
    rw [hg]
    simp only [List.flatMap_cons, List.flatMap_nil, List.append_nil, hm,
      List.map_cons, List.map_nil]
    rfl
  have hmap : (evaluate_mr_performance df (calculate_pt_group_metrics df)).map (fun o => o.pos)
      = (keysOf df (fun r => (r.mr_pos, r.mr_name))).map (fun pn => pn.1) := by
    unfold evaluate_mr_performance
    rw [flatMap_map_of_singleton (fun o : MRPerf => o.pos) (fun b : MRAgg => b.pos) (mrAgg df) _ hinner]
    unfold mrAgg
    rw [List.map_map]
    rfl
  refine ⟨?_, ?_, ?_⟩
  · rw [hmap]
    refine List.Nodup.map_on ?_ nodup_keysOf
    intro x hx y hy hxy
    obtain ⟨rx, hrx, hkx⟩ := mem_keysOf.mp hx
    obtain ⟨ry, hry, hky⟩ := mem_keysOf.mp hy
    rw [← hkx, ← hky] at hxy ⊢
    dsimp only at hxy
    simp only [Prod.mk.injEq]
    exact ⟨hxy, hname rx hrx ry hry hxy⟩
  · intro p
    rw [hmap]
    simp only [List.mem_map]
    constructor
    · rintro ⟨pn, hpn, rfl⟩
      obtain ⟨r, hr, hk⟩ := mem_keysOf.mp hpn
      exact ⟨r, hr, by rw [← hk]⟩
    · rintro ⟨r, hr, rfl⟩
      exact ⟨(r.mr_pos, r.mr_name), mem_keysOf.mpr ⟨r, hr, rfl⟩, rfl⟩
  · intro o ho
    simp only [evaluate_mr_performance, List.mem_flatMap, List.mem_map] at ho
    obtain ⟨b, hb, g, hg, m2, hm2, m1, hm1, rfl⟩ := ho
    simp only [mrAgg, List.mem_map] at hb
    obtain ⟨pn, hpn, rfl⟩ := hb
    obtain ⟨w, hw, hkey⟩ := mem_keysOf.mp hpn
    have hw1 : w.mr_pos = pn.1 := by rw [← hkey]
    have hw2 : w.mr_name = pn.2 := by rw [← hkey]
    have hfe : df.filter (fun r => r.mr_pos = pn.1 ∧ r.mr_name = pn.2)
        = df.filter (fun r => r.mr_pos = pn.1) := by
      refine List.filter_congr ?_
      intro r hr
      by_cases hp : r.mr_pos = pn.1
      · have hn : r.mr_name = pn.2 := by
          rw [← hw2]
          exact hname r hr w hw (by rw [hp, hw1])
        simp [hp, hn]
      · simp [hp]
    have hgs : g = some w.pt_group := by
      have h1 : groupsFor df pn.1 = [some w.pt_group] := by
        rw [← hw1]
        exact groupsFor_singleton df hgrp w hw
      have h2 : g ∈ groupsFor df pn.1 := hg
      rw [h1] at h2
      simpa using h2
    refine ⟨?_, ?_, ?_, ?_, ?_⟩
    · show sumBy (df.filter (fun r => r.mr_pos = pn.1 ∧ r.mr_name = pn.2))
        (fun r => r.a2023q1) = _
      rw [hfe]
      rfl
    · show sumBy (df.filter (fun r => r.mr_pos = pn.1 ∧ r.mr_name = pn.2))
        (fun r => r.a2023q2) = _
      rw [hfe]
      rfl
    · show sumBy (df.filter (fun r => r.mr_pos = pn.1 ∧ r.mr_name = pn.2))
        (fun r => r.a2024q1) = _
      rw [hfe]
      rfl
    · show sumBy (df.filter (fun r => r.mr_pos = pn.1 ∧ r.mr_name = pn.2))
        (fun r => r.target) = _
      rw [hfe]
      rfl
    · intro r hr hrp
      have hrp2 : r.mr_pos = pn.1 := hrp
      show g = some r.pt_group
      rw [hgs, hgrp w hw r hr (by rw [hw1, hrp2])]

/-- Input whose single MR position belongs to two different PT groups. -/
def dfC8 : List Row :=
  [{ row0 with
      mr_pos := "m1", mr_name := "n", pt_group := "g1",
      target := 1, a2023q1 := 1, a2023q2 := 1, a2024q1 := 1 },
   { row0 with
      mr_pos := "m1", mr_name := "n", pt_group := "g2",
      target := 2, a2023q1 := 1, a2023q2 := 1, a2024q1 := 1 }]

/-- C8 counterexample: `dfC8` has exactly one distinct MR position id,
yet `evaluate_mr_performance` returns two output rows for it (the merge
with the deduplicated (MR, PT group) pairs duplicates the row), so the
function does not always return exactly one row per distinct MR. -/
theorem mr_perf_rows_cex :
    keysOf dfC8 (fun r => r.mr_pos) = ["m1"] ∧
    ((evaluate_mr_performance dfC8 (calculate_pt_group_metrics dfC8)).map (fun o => o.pos))
      = ["m1", "m1"] := by
  with_unfolding_all decide

/-- Input for the deployment witnesses: DM d1 has six distinct MRs and a
summed target of exactly 70 percent of the overall DM productivity. -/
def dfC3 : List Row :=
  [{ row0 with dm_pos := "d1", dm_name := "D1", mr_pos := "a1", target := 2 },
   { row0 with dm_pos := "d1", dm_name := "D1", mr_pos := "a2", target := 1 },
   { row0 with dm_pos := "d1", dm_name := "D1", mr_pos := "a3", target := 1 },
   { row0 with dm_pos := "d1", dm_name := "D1", mr_pos := "a4", target := 1 },
   { row0 with dm_pos := "d1", dm_name := "D1", mr_pos := "a5", target := 1 },
   { row0 with dm_pos := "d1", dm_name := "D1", mr_pos := "a6", target := 1 },
   { row0 with dm_pos := "d2", dm_name := "D2", mr_pos := "b1", target := 13 }]

/-- Witness instantiating `dm_violation_iff` on `dfC3`: DM d1 has span 6
and productivity exactly 70 percent of the overall figure, and its
violation flag is `No` (both comparisons strict). -/
theorem dm_violation_iff_witness :
    ((evaluate_dm_deployment dfC3).headI.violation = "Yes" ↔
      nuniqueBy (dfC3.filter (fun r => r.dm_pos = (evaluate_dm_deployment dfC3).headI.pos))
        (fun r => r.mr_pos) < 7 ∧
      sumBy (dfC3.filter (fun r => r.dm_pos = (evaluate_dm_deployment dfC3).headI.pos))
        (fun r => r.target)
        < 7/10 * (sumBy dfC3 (fun r => r.target) / (nuniqueBy dfC3 (fun r => r.dm_pos) : ℚ))) ∧
    (evaluate_dm_deployment dfC3).headI.span = 6 ∧
    (evaluate_dm_deployment dfC3).headI.violation = "No" :=
  ⟨dm_violation_iff dfC3 (by with_unfolding_all decide) _ (by with_unfolding_all decide),
   by with_unfolding_all decide, by with_unfolding_all decide⟩

/-- Input for the RM witness: RM r1 has two DMs and a low summed
target. -/
def dfC4 : List Row :=
  [{ row0 with rm_pos := "r1", rm_name := "R1", dm_pos := "d1", target := 1 },
   { row0 with rm_pos := "r1", rm_name := "R1", dm_pos := "d2", target := 1 },
   { row0 with rm_pos := "r2", rm_name := "R2", dm_pos := "d3", target := 20 }]

/-- Witness instantiating `rm_violation_iff` on `dfC4`. -/
theorem rm_violation_iff_witness :
    ((evaluate_rm_deployment dfC4).headI.violation = "Yes" ↔
      nuniqueBy (dfC4.filter (fun r => r.rm_pos = (evaluate_rm_deployment dfC4).headI.pos))
        (fun r => r.dm_pos) < 6 ∧
      sumBy (dfC4.filter (fun r => r.rm_pos = (evaluate_rm_deployment dfC4).headI.pos))
        (fun r => r.target)
        < 7/10 * (sumBy dfC4 (fun r => r.target) / (nuniqueBy dfC4 (fun r => r.rm_pos) : ℚ))) ∧
    (evaluate_rm_deployment dfC4).headI.violation = "Yes" :=
  ⟨rm_violation_iff dfC4 (by with_unfolding_all decide) _ (by with_unfolding_all decide),
   by with_unfolding_all decide⟩

/-- Witness instantiating both halves of `span_range_checks` on
`dfC3` (DM d1 has span 6, within [6, 10]; its lone RM key has span 2,
outside [6, 8]). -/
theorem span_range_checks_witness :
    ((evaluate_dm_deployment dfC3).headI.spanRangeCheck = "Yes" ↔
      6 ≤ (evaluate_dm_deployment dfC3).headI.span ∧
        (evaluate_dm_deployment dfC3).headI.span ≤ 10) ∧
    ((evaluate_rm_deployment dfC3).headI.spanRangeCheck = "Yes" ↔
      6 ≤ (evaluate_rm_deployment dfC3).headI.span ∧
        (evaluate_rm_deployment dfC3).headI.span ≤ 8) :=
  ⟨(span_range_checks dfC3).1 _ (by with_unfolding_all decide),
   (span_range_checks dfC3).2 _ (by with_unfolding_all decide)⟩

/-- Witness instantiating `personnel_violation_iff` on `dfC7w`. -/
theorem personnel_violation_iff_witness :
    ((check_personnel_deployment dfC7w).headI.violation = "Y" ↔
      (FVal.lt (fdiv (4 * sumBy (provRows dfC7w (check_personnel_deployment dfC7w).headI.prov)
            (fun r => r.target))
          ((nuniqueBy (provRows dfC7w (check_personnel_deployment dfC7w).headI.prov)
            (fun r => r.mr_pos) : ℚ)))
        (fdiv (4 * sumBy dfC7w (fun r => r.target))
          (((keysOf dfC7w (fun r => r.prov)).map
            (fun p => (nuniqueBy (provRows dfC7w p) (fun r => r.mr_pos) : ℚ))).sum)) = true
       ∧
       FVal.lt ((fdiv (sumBy (provRows dfC7w (check_personnel_deployment dfC7w).headI.prov)
            (fun r => r.target))
          (sumBy (provRows dfC7w (check_personnel_deployment dfC7w).headI.prov)
            (fun r => r.a2023q2))).sub1)
        ((fdiv (sumBy dfC7w (fun r => r.target))
          (sumBy dfC7w (fun r => r.a2023q2))).sub1) = true)) :=
  personnel_violation_iff dfC7w _ (by with_unfolding_all decide)

/-- Input for the MR-performance witness: in PT group g, MR m1 has a Q2
productivity index of exactly 0.7 with growth below the group rate, and
a Q1 productivity index of exactly 0.5. -/
def dfC6 : List Row :=
  [{ row0 with
      mr_pos := "m1", mr_name := "n1", pt_group := "g",
      target := 7, a2023q2 := 14, a2024q1 := 1, a2023q1 := 1 },
   { row0 with
      mr_pos := "m2", mr_name := "n2", pt_group := "g",
      target := 13, a2023q2 := 6, a2024q1 := 3, a2023q1 := 3 }]

/-- Witness instantiating `mr_perf_flags` on `dfC6`, checking the two
boundary cases: index exactly 0.7 with low growth flags the medium band
`Yes`, and index exactly 0.5 flags the low band `No`. -/
theorem mr_perf_flags_witness :
    (((evaluate_mr_performance dfC6 (calculate_pt_group_metrics dfC6)).headI.q2Low = "Yes" ↔
      FVal.lt (evaluate_mr_performance dfC6 (calculate_pt_group_metrics dfC6)).headI.q2Index
        (.fin (1/2)) = true) ∧
     ((evaluate_mr_performance dfC6 (calculate_pt_group_metrics dfC6)).headI.q2Med = "Yes" ↔
      FVal.lt (evaluate_mr_performance dfC6 (calculate_pt_group_metrics dfC6)).headI.q2Growth
        (evaluate_mr_performance dfC6 (calculate_pt_group_metrics dfC6)).headI.q2Rate = true ∧
      FVal.le (.fin (1/2))
        (evaluate_mr_performance dfC6 (calculate_pt_group_metrics dfC6)).headI.q2Index = true ∧
      FVal.le (evaluate_mr_performance dfC6 (calculate_pt_group_metrics dfC6)).headI.q2Index
        (.fin (7/10)) = true) ∧
     ((evaluate_mr_performance dfC6 (calculate_pt_group_metrics dfC6)).headI.q1Low = "Yes" ↔
      FVal.lt (evaluate_mr_performance dfC6 (calculate_pt_group_metrics dfC6)).headI.q1Index
        (.fin (1/2)) = true) ∧
     ((evaluate_mr_performance dfC6 (calculate_pt_group_metrics dfC6)).headI.q1Med = "Yes" ↔
      FVal.lt (evaluate_mr_performance dfC6 (calculate_pt_group_metrics dfC6)).headI.q1Growth
        (evaluate_mr_performance dfC6 (calculate_pt_group_metrics dfC6)).headI.q1Rate = true ∧
      FVal.le (.fin (1/2))
        (evaluate_mr_performance dfC6 (calculate_pt_group_metrics dfC6)).headI.q1Index = true ∧
      FVal.le (evaluate_mr_performance dfC6 (calculate_pt_group_metrics dfC6)).headI.q1Index
        (.fin (7/10)) = true)) ∧
    (evaluate_mr_performance dfC6 (calculate_pt_group_metrics dfC6)).headI.q2Index
      = .fin (7/10) ∧
    (evaluate_mr_performance dfC6 (calculate_pt_group_metrics dfC6)).headI.q2Med = "Yes" ∧
    (evaluate_mr_performance dfC6 (calculate_pt_group_metrics dfC6)).headI.q1Index
      = .fin (1/2) ∧
    (evaluate_mr_performance dfC6 (calculate_pt_group_metrics dfC6)).headI.q1Low = "No" :=
  ⟨mr_perf_flags dfC6 (calculate_pt_group_metrics dfC6) _ (by with_unfolding_all decide),
   by with_unfolding_all decide, by with_unfolding_all decide,
   by with_unfolding_all decide, by with_unfolding_all decide⟩

/-- Input with consistent names and one PT group per MR, for the
amended-claim witness. -/
def dfC8w : List Row :=
  [{ row0 with
      mr_pos := "m1", mr_name := "n1", pt_group := "g",
      target := 1, a2023q1 := 2, a2023q2 := 3, a2024q1 := 4 },
   { row0 with
      mr_pos := "m2", mr_name := "n2", pt_group := "g", target := 2 },
   { row0 with
      mr_pos := "m1", mr_name := "n1", pt_group := "g",
      target := 4, a2023q1 := 1, a2023q2 := 1, a2024q1 := 1 }]

/-- Witness instantiating `mr_perf_rows` on `dfC8w`. -/
theorem mr_perf_rows_witness :
    ((evaluate_mr_performance dfC8w (calculate_pt_group_metrics dfC8w)).map
      (fun o => o.pos)).Nodup ∧
    (∀ p, p ∈ (evaluate_mr_performance dfC8w (calculate_pt_group_metrics dfC8w)).map
        (fun o => o.pos) ↔ ∃ r ∈ dfC8w, r.mr_pos = p) ∧
    (∀ o ∈ evaluate_mr_performance dfC8w (calculate_pt_group_metrics dfC8w),
      o.a2023q1 = sumBy (dfC8w.filter (fun r => r.mr_pos = o.pos)) (fun r => r.a2023q1) ∧
      o.a2023q2 = sumBy (dfC8w.filter (fun r => r.mr_pos = o.pos)) (fun r => r.a2023q2) ∧
      o.a2024q1 = sumBy (dfC8w.filter (fun r => r.mr_pos = o.pos)) (fun r => r.a2024q1) ∧
      o.target = sumBy (dfC8w.filter (fun r => r.mr_pos = o.pos)) (fun r => r.target) ∧
      (∀ r ∈ dfC8w, r.mr_pos = o.pos → o.group = some r.pt_group)) :=
  mr_perf_rows dfC8w (by with_unfolding_all decide) (by with_unfolding_all decide)

/-- Group key of the two per-city summaries of
`evaluate_dm_city_coverage` (the six grouped columns). -/
structure Key6 where
  pos : String
  name : String
  baseProv : String
  prov : String
  city : String
  baseCity : String
deriving DecidableEq, Inhabited

/-- The six-column group key of an input record. -/
def dmKey (r : Row) : Key6 :=
  { pos := r.dm_pos, name := r.dm_name, baseProv := r.dm_base_prov,
    prov := r.prov, city := r.city, baseCity := r.dm_base_city }

/-- The `drop_duplicates` subset of the potential summary: (DM position,
city, facility id). -/
def dmTrip (r : Row) : String × String × String := (r.dm_pos, r.city, r.hosp)

/-- One output row of `evaluate_dm_city_coverage` (the modelled
columns). -/
structure DMCityRow where
  pos : String
  name : String
  baseProv : String
  prov : String
  city : String
  baseCity : String
  sales : FVal
  potential : FVal
  numCities : ℕ
  crossProv : String
  crossProvAll : String
deriving DecidableEq, Inhabited

/-- Keys of the facility-deduplicated potential summary. -/
def dmPotKeys (df : List Row) : List Key6 :=
  keysOf (dropDupBy dmTrip df) dmKey

/-- All keys of the outer merge: the sales-summary keys followed by the
potential-only keys (provably none, the deduplicated records being a
subset of the input). -/
def dmAllKeys (df : List Row) : List Key6 :=
  keysOf df dmKey ++ (dmPotKeys df).filter (fun k => ¬ k ∈ keysOf df dmKey)

/-- Embedding of `evaluate_dm_city_coverage`, restricted to the columns
the verified properties concern: the grouped sales sum (no
deduplication), the grouped potential sum over the records deduplicated
by (DM position, city, facility id) — NaN when the outer merge finds no
row on that side — the per-DM distinct-city count, and the two
cross-province flags.  The omitted columns (top sales/potential city and
base-city alignment) come from left merges keyed on the DM position with
exactly one matching row per DM, which change neither the row
multiplicity nor the columns modelled here. -/
def evaluate_dm_city_coverage (df : List Row) : List DMCityRow :=
  (dmAllKeys df).map (fun k =>
    { pos := k.pos, name := k.name, baseProv := k.baseProv, prov := k.prov,
      city := k.city, baseCity := k.baseCity,
      sales := if k ∈ keysOf df dmKey
        then .fin (sumBy (df.filter (fun r => dmKey r = k)) (fun r => r.r6m))
        else .nan,
      potential := if k ∈ dmPotKeys df
        then .fin (sumBy ((dropDupBy dmTrip df).filter (fun r => dmKey r = k))
          (fun r => r.potential))
        else .nan,
      numCities := nuniqueBy ((dmAllKeys df).filter (fun k2 => k2.pos = k.pos))
        (fun k2 => k2.city),
      crossProv := if k.baseProv ≠ k.prov then "Yes" else "No",
      crossProvAll := if ((dmAllKeys df).filter (fun k2 => k2.pos = k.pos)).any
          (fun k2 => k2.baseProv ≠ k2.prov) then "Yes" else "No" })

theorem dmPotKeys_subset (df : List Row) : ∀ k ∈ dmPotKeys df, k ∈ keysOf df dmKey := by
  intro k hk
  obtain ⟨r, hr, rfl⟩ := mem_keysOf.mp hk
  exact mem_keysOf.mpr ⟨r, mem_of_mem_dropDupBy hr, rfl⟩

theorem dmAllKeys_eq (df : List Row) : dmAllKeys df = keysOf df dmKey := by
  unfold dmAllKeys
  have h : (dmPotKeys df).filter (fun k => ¬ k ∈ keysOf df dmKey) = [] := by
    refine List.filter_eq_nil_iff.mpr ?_
    intro k hk
    simp [dmPotKeys_subset df k hk]
  rw [h, List.append_nil]

theorem dropDupBy_ne_nil {α κ : Type} (k : α → κ) [DecidableEq κ] {l : List α}
    (h : l ≠ []) : dropDupBy k l ≠ [] := by
  cases l with
  | nil => exact absurd rfl h
  | cons a t =>
    rw [dropDupBy_cons]
    exact List.cons_ne_nil _ _

/-- C1: in `evaluate_dm_city_coverage`, each output row's sales value is
the sum of R6M Sales Actual over all of the DM's input rows for the row's
city (no deduplication), while its hospital-potential value is the sum of
医院潜力 over those rows after deduplicating by (DM position, city,
facility id) — so a facility reached through several sales rows is
counted once in potential, while every sales row is summed.  Hypotheses:
a DM position id determines the DM name and base city/province, and a
city name determines its province, as the claim's per-DM-and-city reading
presupposes. -/
theorem dm_city_sums (df : List Row)
    (hdm : ∀ r ∈ df, ∀ r' ∈ df, r.dm_pos = r'.dm_pos →
      r.dm_name = r'.dm_name ∧ r.dm_base_prov = r'.dm_base_prov ∧
      r.dm_base_city = r'.dm_base_city)
    (hcity : ∀ r ∈ df, ∀ r' ∈ df, r.city = r'.city → r.prov = r'.prov) :
    ∀ o ∈ evaluate_dm_city_coverage df,
      o.sales = .fin (sumBy (df.filter (fun r => r.dm_pos = o.pos ∧ r.city = o.city))
        (fun r => r.r6m)) ∧
      o.potential = .fin (sumBy (dropDupBy dmTrip
        (df.filter (fun r => r.dm_pos = o.pos ∧ r.city = o.city)))
        (fun r => r.potential)) := by
  intro o ho
  unfold evaluate_dm_city_coverage at ho
  rw [dmAllKeys_eq] at ho
  simp only [List.mem_map] at ho
  obtain ⟨k, hk, rfl⟩ := ho
  obtain ⟨w, hw, hwk⟩ := mem_keysOf.mp hk
  have hw1 : w.dm_pos = k.pos := congrArg Key6.pos hwk
  have hw2 : w.city = k.city := congrArg Key6.city hwk
  have hiff : ∀ r ∈ df, (dmKey r = k ↔ (r.dm_pos = k.pos ∧ r.city = k.city)) := by
    intro r hr
    constructor
    · intro he
      exact ⟨congrArg Key6.pos he, congrArg Key6.city he⟩
    · intro hp
      have h1 := hdm r hr w hw (hp.1.trans hw1.symm)
      have h2 := hcity r hr w hw (hp.2.trans hw2.symm)
      rw [← hwk]
      unfold dmKey
      simp only [Key6.mk.injEq]
      exact ⟨hp.1.trans hw1.symm, h1.1, h1.2.1, h2, hp.2.trans hw2.symm, h1.2.2⟩
  have hpt : ∀ r ∈ df, (decide (dmKey r = k))
      = (decide (r.dm_pos = k.pos ∧ r.city = k.city)) :=
    fun r hr => decide_eq_decide.mpr (hiff r hr)
  have hfilter : df.filter (fun r => dmKey r = k)
      = df.filter (fun r => r.dm_pos = k.pos ∧ r.city = k.city) :=
    List.filter_congr hpt
  have hPdet : ∀ a b : Row, dmTrip a = dmTrip b →
      (decide (a.dm_pos = k.pos ∧ a.city = k.city))
        = (decide (b.dm_pos = k.pos ∧ b.city = k.city)) := by
    intro a b he
    have h1 : a.dm_pos = b.dm_pos := congrArg (fun t => t.1) he
    have h2 : a.city = b.city := congrArg (fun t => t.2.1) he
    rw [h1, h2]
  have hcomm := dropDupBy_filter hPdet df
  have hwP : w ∈ df.filter (fun r => r.dm_pos = k.pos ∧ r.city = k.city) :=
    List.mem_filter.mpr ⟨hw, by simp [hw1, hw2]⟩
  have hne : df.filter (fun r => r.dm_pos = k.pos ∧ r.city = k.city) ≠ [] :=
    List.ne_nil_of_mem hwP
  have hkp : k ∈ dmPotKeys df := by
    obtain ⟨r, hr⟩ := List.exists_mem_of_ne_nil _ (dropDupBy_ne_nil dmTrip hne)
    have hmem : r ∈ (dropDupBy dmTrip df).filter
        (fun x => x.dm_pos = k.pos ∧ x.city = k.city) := by
      rw [hcomm]
      exact hr
    have hrd := List.mem_filter.mp hmem
    have hdk : dmKey r = k :=
      (hiff r (mem_of_mem_dropDupBy hrd.1)).mpr (by simpa using hrd.2)
    exact mem_keysOf.mpr ⟨r, hrd.1, hdk⟩
  refine ⟨?_, ?_⟩
  · show (if k ∈ keysOf df dmKey then
        FVal.fin (sumBy (df.filter (fun r => dmKey r = k)) (fun r => r.r6m))
      else FVal.nan) = _
    rw [if_pos hk, hfilter]
  · show (if k ∈ dmPotKeys df then
        FVal.fin (sumBy ((dropDupBy dmTrip df).filter (fun r => dmKey r = k))
          (fun r => r.potential))
      else FVal.nan) = _
    rw [if_pos hkp]
    have hf2 : (dropDupBy dmTrip df).filter (fun r => dmKey r = k)
        = (dropDupBy dmTrip df).filter (fun r => r.dm_pos = k.pos ∧ r.city = k.city) :=
      List.filter_congr (fun r hr => hpt r (mem_of_mem_dropDupBy hr))
    rw [hf2, hcomm]

/-- C10: in `evaluate_dm_city_coverage`, each row's cross-province flag
is `Yes` exactly when the row's covered province differs from the DM's
base province, and every row of a DM carries the same cross_province_all
value, which is `Yes` exactly when at least one of the DM's input rows
covers a province different from the DM's base province.  Hypothesis: a
DM position id determines its base province, as "the DM's base province"
presupposes. -/
theorem dm_city_cross_province (df : List Row)
    (hbp : ∀ r ∈ df, ∀ r' ∈ df, r.dm_pos = r'.dm_pos → r.dm_base_prov = r'.dm_base_prov) :
    ∀ o ∈ evaluate_dm_city_coverage df,
      (o.crossProv = "Yes" ↔ o.prov ≠ o.baseProv) ∧
      (o.crossProvAll = "Yes" ↔ ∃ r ∈ df, r.dm_pos = o.pos ∧ r.prov ≠ o.baseProv) ∧
      (∀ o2 ∈ evaluate_dm_city_coverage df, o2.pos = o.pos →
        o2.crossProvAll = o.crossProvAll) := by
  intro o ho
  unfold evaluate_dm_city_coverage at ho
  rw [dmAllKeys_eq] at ho
  simp only [List.mem_map] at ho
  obtain ⟨k, hk, rfl⟩ := ho
  obtain ⟨w, hw, hwk⟩ := mem_keysOf.mp hk
  have hwbp : w.dm_base_prov = k.baseProv := congrArg Key6.baseProv hwk
  have hw1 : w.dm_pos = k.pos := congrArg Key6.pos hwk
  have hany : (((keysOf df dmKey).filter (fun k2 => k2.pos = k.pos)).any
      (fun k2 => k2.baseProv ≠ k2.prov) = true)
      ↔ ∃ r ∈ df, r.dm_pos = k.pos ∧ r.prov ≠ k.baseProv := by
    rw [List.any_eq_true]
    constructor
    · rintro ⟨k2, hk2f, hk2⟩
      have hk2mem := (List.mem_filter.mp hk2f).1
      have hk2pos : k2.pos = k.pos := of_decide_eq_true (List.mem_filter.mp hk2f).2
      obtain ⟨r2, hr2, hrk2⟩ := mem_keysOf.mp hk2mem
      have hr2pos : r2.dm_pos = k.pos := (congrArg Key6.pos hrk2).trans hk2pos
      refine ⟨r2, hr2, hr2pos, ?_⟩
      have hbpr : r2.dm_base_prov = k.baseProv := by
        rw [← hwbp]
        exact hbp r2 hr2 w hw (hr2pos.trans hw1.symm)
      have hprovr : r2.prov = k2.prov := congrArg Key6.prov hrk2
      have hbpr2 : r2.dm_base_prov = k2.baseProv := congrArg Key6.baseProv hrk2
      have hne : k2.baseProv ≠ k2.prov := of_decide_eq_true hk2
      have hkb : k2.baseProv = k.baseProv := hbpr2.symm.trans hbpr
      rw [hprovr]
      intro he
      exact hne (hkb.trans he.symm)
    · rintro ⟨r, hr, hrpos, hrne⟩
      refine ⟨dmKey r, List.mem_filter.mpr ⟨mem_keysOf.mpr ⟨r, hr, rfl⟩,
        decide_eq_true hrpos⟩, ?_⟩
      have hb : r.dm_base_prov = k.baseProv := by
        rw [← hwbp]
        exact hbp r hr w hw (hrpos.trans hw1.symm)
      exact decide_eq_true
        (show r.dm_base_prov ≠ r.prov from fun he => hrne ((hb.symm.trans he).symm))
  refine ⟨?_, ?_, ?_⟩
  · exact (ite_eq_left_iff_of_ne (by decide)).trans ne_comm
  · exact (ite_eq_left_iff_of_ne (by decide)).trans hany
  · intro o2 ho2 hpos
    unfold evaluate_dm_city_coverage at ho2
    rw [dmAllKeys_eq] at ho2
    simp only [List.mem_map] at ho2
    obtain ⟨k2, hk2, rfl⟩ := ho2
    have hp2 : k2.pos = k.pos := hpos
    show (if ((keysOf df dmKey).filter (fun x => x.pos = k2.pos)).any
        (fun x => x.baseProv ≠ x.prov) = true then "Yes" else "No")
      = (if ((keysOf df dmKey).filter (fun x => x.pos = k.pos)).any
        (fun x => x.baseProv ≠ x.prov) = true then "Yes" else "No")
    rw [hp2]

/-- Input with two rows identical in (DM position, city, facility id)
but with different sales amounts. -/
def dfC1 : List Row :=
  [{ row0 with
      dm_pos := "d1", dm_name := "D", dm_base_prov := "P", dm_base_city := "c1",
      prov := "P", city := "c1", hosp := "h1", r6m := 10, potential := 100 },
   { row0 with
      dm_pos := "d1", dm_name := "D", dm_base_prov := "P", dm_base_city := "c1",
      prov := "P", city := "c1", hosp := "h1", r6m := 20, potential := 100 }]

/-- Witness instantiating `dm_city_sums` on `dfC1`: the facility's
potential is counted once (100) while both sales amounts are summed
(30). -/
theorem dm_city_sums_witness :
    ((evaluate_dm_city_coverage dfC1).headI.sales
      = .fin (sumBy (dfC1.filter (fun r =>
          r.dm_pos = (evaluate_dm_city_coverage dfC1).headI.pos ∧
          r.city = (evaluate_dm_city_coverage dfC1).headI.city)) (fun r => r.r6m)) ∧
     (evaluate_dm_city_coverage dfC1).headI.potential
      = .fin (sumBy (dropDupBy dmTrip (dfC1.filter (fun r =>
          r.dm_pos = (evaluate_dm_city_coverage dfC1).headI.pos ∧
          r.city = (evaluate_dm_city_coverage dfC1).headI.city)))
        (fun r => r.potential))) ∧
    (evaluate_dm_city_coverage dfC1).headI.sales = .fin 30 ∧
    (evaluate_dm_city_coverage dfC1).headI.potential = .fin 100 :=
  ⟨dm_city_sums dfC1 (by with_unfolding_all decide) (by with_unfolding_all decide)
      _ (by with_unfolding_all decide),
   by with_unfolding_all decide, by with_unfolding_all decide⟩

/-- Input on which a group key of the sales summary is absent from the
facility-deduplicated potential summary: the two rows share (DM, city,
facility id) but sit in different provinces, so the second row is dropped
by the deduplication and its six-column group keeps no potential row. -/
def dfC9 : List Row :=
  [{ row0 with
      dm_pos := "d1", prov := "P1", city := "c", hosp := "h",
      r6m := 10, potential := 100 },
   { row0 with
      dm_pos := "d1", prov := "P2", city := "c", hosp := "h",
      r6m := 20, potential := 100 }]

/-- C9: on `dfC9` a group key occurs in the sales summary but not in the
potential summary, and the outer merge accordingly yields an output row
whose sales value is present while its potential value is the missing
marker. -/
theorem dm_city_outer_merge_missing :
    (∃ k ∈ keysOf dfC9 dmKey, ¬ k ∈ dmPotKeys dfC9) ∧
    ∃ o ∈ evaluate_dm_city_coverage dfC9,
      o.prov = "P2" ∧ o.sales = .fin 20 ∧ o.potential = FVal.nan := by
  with_unfolding_all decide

/-- Input whose single DM covers a city outside its base province. -/
def dfC10 : List Row :=
  [{ row0 with
      dm_pos := "d1", dm_base_prov := "P1", prov := "P1", city := "c1", hosp := "h1" },
   { row0 with
      dm_pos := "d1", dm_base_prov := "P1", prov := "P2", city := "c2", hosp := "h2" }]

/-- Witness instantiating `dm_city_cross_province` on `dfC10`: the DM's
rows all carry `cross_province_all = Yes` because one covered province
differs from the base province. -/
theorem dm_city_cross_province_witness :
    (((evaluate_dm_city_coverage dfC10).headI.crossProv = "Yes" ↔
      (evaluate_dm_city_coverage dfC10).headI.prov
        ≠ (evaluate_dm_city_coverage dfC10).headI.baseProv) ∧
     ((evaluate_dm_city_coverage dfC10).headI.crossProvAll = "Yes" ↔
      ∃ r ∈ dfC10, r.dm_pos = (evaluate_dm_city_coverage dfC10).headI.pos ∧
        r.prov ≠ (evaluate_dm_city_coverage dfC10).headI.baseProv) ∧
     (∀ o2 ∈ evaluate_dm_city_coverage dfC10,
        o2.pos = (evaluate_dm_city_coverage dfC10).headI.pos →
        o2.crossProvAll = (evaluate_dm_city_coverage dfC10).headI.crossProvAll)) ∧
    (evaluate_dm_city_coverage dfC10).headI.crossProv = "No" ∧
    (evaluate_dm_city_coverage dfC10).headI.crossProvAll = "Yes" :=
  ⟨dm_city_cross_province dfC10 (by with_unfolding_all decide) _
      (by with_unfolding_all decide),
   by with_unfolding_all decide, by with_unfolding_all decide⟩
